import Mathlib

/-!
Verification of the E-Poster repository's data-reconciliation and
synchronization core against its specification.

The development shallowly embeds the TypeScript sources:
  - src/utils/abstractIdNormalizer.ts   (normalizeAbstractId)
  - src/utils/filenameParser.ts         (parseFilename, extractAuthor, isCodePrefix)
  - the abstract list generator          (generateAbstractList, extractNumericId)
  - src/app/api/presentation/route.ts   (GET / POST handlers over the room store)

Strings are modelled as Lean `String` / `List Char`; JavaScript numbers
arising from `parseInt` over decimal digit runs are modelled as `Nat`
(exact; float rounding beyond 2^53 is out of scope).  JavaScript `||`
falsiness on strings (empty string is falsy) is modelled by `jsOrS`.
`Array.prototype.sort` with the numeric comparator is modelled by a
stable insertion sort: ECMAScript sort is required to be stable, a
comparator returning `NaN` counts as `+0`, and a stable sort by a total
preorder has a unique result, so the embedding is faithful.
-/

namespace EPoster

/-- Decimal digit test, the model of the regex class `\d` over ASCII input. -/
def isDigitC (c : Char) : Bool := '0' ≤ c && c ≤ '9'

/-- Whitespace test, the model of the regex class `\s` (ASCII part:
space, tab, line feed, vertical tab, form feed, carriage return). -/
def isWsC (c : Char) : Bool :=
  c = ' ' || c = '\t' || c = '\n' || c = '\r' || c.toNat = 11 || c.toNat = 12

/-- Numeric value of a decimal digit character. -/
def digitVal (c : Char) : Nat := c.toNat - '0'.toNat

/-- Value of a decimal digit run, the model of `parseInt(digits, 10)`. -/
def digitsToNat (ds : List Char) : Nat :=
  ds.foldl (fun a c => 10 * a + digitVal c) 0

/-- Fueled decimal rendering of a natural number (most significant digit
first); the model of JavaScript number-to-string conversion for
non-negative integers. -/
def decRenderAux : Nat → Nat → List Char
  | 0, _ => []
  | fuel + 1, n =>
    if n < 10 then [Nat.digitChar n]
    else decRenderAux fuel (n / 10) ++ [Nat.digitChar (n % 10)]

/-- Decimal rendering of a natural number. -/
def decRender (n : Nat) : List Char := decRenderAux (n + 1) n

/-- Decimal rendering as a `String`; the model of template-literal
interpolation of a number. -/
def natToStr (n : Nat) : String := String.mk (decRender n)

/-- Attempt to match the regex `ABS-(\d+)` (case-insensitive) at the head
of the character list.  On success returns the captured digit run
(greedy, nonempty) and the remainder. -/
def absHere : List Char → Option (List Char × List Char)
  | a :: b :: s :: d :: rest =>
    if a.toLower = 'a' && b.toLower = 'b' && s.toLower = 's' && d = '-' then
      let ds := rest.takeWhile isDigitC
      if ds.isEmpty then none else some (ds, rest.dropWhile isDigitC)
    else none
  | _ => none

/-- Leftmost match of `ABS-(\d+)` (case-insensitive): returns the prefix
before the match, the captured digit run, and the remainder after it.
This is the model of `String.prototype.match` with that regex. -/
def findAbs : List Char → Option (List Char × List Char × List Char)
  | [] => none
  | c :: cs =>
    match absHere (c :: cs) with
    | some (ds, rest) => some ([], ds, rest)
    | none =>
      match findAbs cs with
      | some (pre, ds, rest) => some (c :: pre, ds, rest)
      | none => none

/-- Model of `normalizeAbstractId` (src/utils/abstractIdNormalizer.ts):
find the first `ABS-(\d+)` match, parse the digit run, and render the
canonical `ABS-{integer}` form without leading zeros. -/
def normalizeAbstractId (s : String) : Option String :=
  match findAbs s.data with
  | none => none
  | some (_, ds, _) => some ("ABS-" ++ natToStr (digitsToNat ds))

/-- Result record of the filename parser (src/utils/filenameParser.ts). -/
structure ParsedFilename where
  abstractId : Option String
  author : Option String
  title : String
  rawFilename : String
deriving DecidableEq, Repr

/-- Model of `stripExtension`: remove the text from the last dot onward;
a filename with no dot is unchanged. -/
def stripExtension (s : List Char) : List Char :=
  match s.reverse.dropWhile (fun c => c ≠ '.') with
  | [] => s
  | _ :: t => t.reverse

/-- Collapse every maximal run of whitespace to a single space; the model
of `.replace(/\s+/g, ' ')`. -/
def collapseWs : List Char → List Char
  | [] => []
  | [c] => if isWsC c then [' '] else [c]
  | c :: d :: rest =>
    if isWsC c then
      if isWsC d then collapseWs (d :: rest) else ' ' :: collapseWs (d :: rest)
    else c :: collapseWs (d :: rest)

/-- Remove leading and trailing whitespace; the model of `.trim()`. -/
def trimWs (l : List Char) : List Char :=
  ((l.dropWhile isWsC).reverse.dropWhile isWsC).reverse

/-- Model of `.replace(/\s+New\s*$/i, '')` applied to an already
collapsed and trimmed string: strip one trailing `New` token (any case)
together with the single whitespace character before it. -/
def stripTrailingNew (l : List Char) : List Char :=
  match l.reverse with
  | w :: e :: n :: c :: rest =>
    if w.toLower = 'w' && e.toLower = 'e' && n.toLower = 'n' && isWsC c then
      rest.reverse
    else l
  | _ => l

/-- Split into maximal whitespace-free words; the model of
`.split(/\s+/)` on trimmed input (no empty pieces arise there). -/
def wordsOf (l : List Char) : List (List Char) :=
  (l.foldr
    (fun c acc =>
      if isWsC c then [] :: acc
      else
        match acc with
        | [] => [[c]]
        | w :: ws => (c :: w) :: ws)
    []).filter (fun w => !w.isEmpty)

/-- Character class `[A-Z0-9]` of the code-prefix pattern. -/
def isCodeChar (c : Char) : Bool :=
  ('A' ≤ c && c ≤ 'Z') || ('0' ≤ c && c ≤ '9')

/-- Model of `isCodePrefix`: every whitespace-separated word matches
`^[A-Z0-9]+$`. -/
def isCodePrefixLike (text : List Char) : Bool :=
  (wordsOf text).all (fun w => !w.isEmpty && w.all isCodeChar)

/-- The author-candidate cleanup pipeline of `extractAuthor`: replace
underscores and hyphens with spaces, collapse whitespace runs, trim,
strip a trailing `New` token, trim again. -/
def cleanAuthorCandidate (before : List Char) : List Char :=
  let replaced := before.map (fun c => if c = '_' then ' ' else c)
  let replaced2 := replaced.map (fun c => if c = '-' then ' ' else c)
  let cleaned := trimWs (collapseWs replaced2)
  trimWs (stripTrailingNew cleaned)

/-- Model of `extractAuthor`: the cleaned candidate, or null when it is
empty or looks like a project/registration code. -/
def extractAuthor (before : List Char) : Option String :=
  let cleaned := cleanAuthorCandidate before
  if cleaned.isEmpty || isCodePrefixLike cleaned then none
  else some (String.mk cleaned)

/-- Model of `parseFilename` (src/utils/filenameParser.ts). -/
def parseFilename (filename : String) : ParsedFilename :=
  let nameWithoutExt := stripExtension filename.data
  match findAbs nameWithoutExt with
  | none =>
    { abstractId := none, author := none,
      title := String.mk nameWithoutExt, rawFilename := filename }
  | some (pre, ds, _) =>
    let abstractId := "ABS-" ++ String.mk ds
    { abstractId := some abstractId, author := extractAuthor pre,
      title := abstractId, rawFilename := filename }

/-- Model of JavaScript `a || b` on strings: the empty string is falsy. -/
def jsOrS (a b : String) : String := if a = "" then b else a

/-- JavaScript truthiness of a nullable string: null and the empty
string are falsy. -/
def jsOptTruthy : Option String → Bool
  | some s => s != ""
  | none => false

/-- A scanned local file (name, file-type category, opaque handle). -/
structure ScannedFile where
  name : String
  fileType : String
  handle : Nat
deriving DecidableEq, Repr

/-- A spreadsheet row: the four canonical fields plus the extra columns
preserved verbatim (string-keyed). -/
structure SpreadsheetRow where
  abstractId : String
  title : String
  author : String
  description : String
  extra : List (String × String)
deriving DecidableEq, Repr

/-- A canonical merged entry (the `Abstract` type of the repository,
restricted to the fields the generator writes). -/
structure Abstract where
  id : String
  title : String
  author : String
  description : String
  thumbnail : String
  fileUrl : String
  fileType : String
  localFileName : Option String
  fileHandle : Option Nat
  abstractId : Option String
  regId : Option String
  hasFile : Bool
  source : String
deriving DecidableEq, Repr

/-- Access to an extra spreadsheet column; an absent key reads as the
empty string (JavaScript `undefined` is falsy exactly like `''` in the
`||` chains that consume this value). -/
def getExtra (r : SpreadsheetRow) (k : String) : String :=
  match r.extra.lookup k with
  | some v => v
  | none => ""

/-- The registration-id lookup chain
`row['Reg ID'] || row['RegID'] || ... || ''` of the generator. -/
def regIdOf (r : SpreadsheetRow) : String :=
  jsOrS (getExtra r "Reg ID") (jsOrS (getExtra r "RegID")
    (jsOrS (getExtra r "reg id") (jsOrS (getExtra r "regid")
      (jsOrS (getExtra r "Registration ID") (jsOrS (getExtra r "registration id")
        (jsOrS (getExtra r "Reg No") (jsOrS (getExtra r "reg no") "")))))))

/-- Model of the `spreadsheetMap` lookup: the map is built by iterating
the rows and calling `set` on each normalizable id, so the binding for a
key is the last row whose id normalizes to it; a null rows input yields
an empty map. -/
def mapFind (rows : Option (List SpreadsheetRow)) (n : String) : Option SpreadsheetRow :=
  match rows with
  | none => none
  | some rs => (rs.filter (fun r => normalizeAbstractId r.abstractId == some n)).getLast?

/-- The per-file normalized id
`parsed.abstractId ? normalizeAbstractId(parsed.abstractId) : null`. -/
def fileNormOf (p : ParsedFilename) : Option String :=
  match p.abstractId with
  | some s => if s = "" then none else normalizeAbstractId s
  | none => none

/-- The parsed-filename record used for a file:
`parsedFilenames[index] ?? parseFilename(file.name)`, expressed with the
index-aligned tail of the parsed list at the file's position. -/
def headParsed (pl : List ParsedFilename) (f : ScannedFile) : ParsedFilename :=
  match pl with
  | p :: _ => p
  | [] => parseFilename f.name

/-- One file-backed entry of `generateAbstractList` (the body of the
`scannedFiles.map` callback). -/
def fileEntry (rows : Option (List SpreadsheetRow)) (parsed : ParsedFilename)
    (index : Nat) (file : ScannedFile) : Abstract :=
  let normalizedId := fileNormOf parsed
  let spreadsheetRow : Option SpreadsheetRow :=
    match normalizedId with
    | some n => if n = "" then none else mapFind rows n
    | none => none
  let rowTitle := match spreadsheetRow with | some r => r.title | none => ""
  let rowAuthor := match spreadsheetRow with | some r => r.author | none => ""
  let rowDescription := match spreadsheetRow with | some r => r.description | none => ""
  let regIdStr := match spreadsheetRow with | some r => regIdOf r | none => ""
  { id :=
      match normalizedId with
      | some n => if n = "" then "file-" ++ natToStr index else n ++ "-" ++ file.name
      | none => "file-" ++ natToStr index,
    title := jsOrS rowTitle (jsOrS parsed.title file.name),
    author := jsOrS rowAuthor (jsOrS (parsed.author.getD "") "Unknown"),
    description := jsOrS rowDescription "",
    thumbnail := "",
    fileUrl := "",
    fileType := file.fileType,
    localFileName := some file.name,
    fileHandle := some file.handle,
    abstractId :=
      if jsOptTruthy normalizedId then normalizedId
      else if jsOptTruthy parsed.abstractId then parsed.abstractId
      else none,
    regId := if regIdStr = "" then none else some regIdStr,
    hasFile := true,
    source := "local" }

/-- The file-backed entries in input order, carrying the running index
used for the synthetic `file-{index}` ids and the index-aligned parsed
filename records. -/
def fileEntriesGo (rows : Option (List SpreadsheetRow)) :
    Nat → List ScannedFile → List ParsedFilename → List Abstract
  | _, [], _ => []
  | i, f :: fs, pl =>
    fileEntry rows (headParsed pl f) i f :: fileEntriesGo rows (i + 1) fs pl.tail

/-- The normalized abstract ids of the scanned files (in input order,
skipping files with no normalizable id). -/
def fileNorms : List ScannedFile → List ParsedFilename → List String
  | [], _ => []
  | f :: fs, pl =>
    match fileNormOf (headParsed pl f) with
    | some n => n :: fileNorms fs pl.tail
    | none => fileNorms fs pl.tail

/-- Membership in `matchedSpreadsheetIds` after the file pass: an id is
matched when some scanned file normalizes to it and the spreadsheet map
has a binding for it. -/
def isMatched (files : List ScannedFile) (pl : List ParsedFilename)
    (rows : Option (List SpreadsheetRow)) (n : String) : Bool :=
  (mapFind rows n).isSome && decide (n ∈ fileNorms files pl)

/-- One spreadsheet-only entry of `generateAbstractList` (the object
pushed for an unclaimed row with normalized id `n`). -/
def rowEntry (r : SpreadsheetRow) (n : String) : Abstract :=
  { id := n,
    title := jsOrS r.title r.abstractId,
    author := jsOrS r.author "Unknown",
    description := jsOrS r.description "",
    thumbnail := "",
    fileUrl := "",
    fileType := "document",
    localFileName := none,
    fileHandle := none,
    abstractId := some n,
    regId := if regIdOf r = "" then none else some (regIdOf r),
    hasFile := false,
    source := "local" }

/-- The spreadsheet-only entries: rows whose id normalizes and that were
not claimed by any scanned file; a null rows input contributes
nothing. -/
def rowEntries (files : List ScannedFile) (pl : List ParsedFilename)
    (rows : Option (List SpreadsheetRow)) : List Abstract :=
  match rows with
  | none => []
  | some rs =>
    rs.filterMap (fun r =>
      match normalizeAbstractId r.abstractId with
      | some n => if isMatched files pl rows n then none else some (rowEntry r n)
      | none => none)

/-- Model of `extractNumericId`: the numeric sort key of an entry's
`abstractId`; `none` stands for the `Infinity` returned for an absent,
empty, or pattern-less id. -/
def extractNumericId (abstractId : Option String) : Option Nat :=
  match abstractId with
  | none => none
  | some s =>
    if s = "" then none
    else
      match findAbs s.data with
      | some (_, ds, _) => some (digitsToNat ds)
      | none => none

/-- Sort key of a merged entry. -/
def sortKey (a : Abstract) : Option Nat := extractNumericId a.abstractId

/-- The total preorder induced by the numeric comparator
`extractNumericId(a) - extractNumericId(b)` (with `none` as infinity;
two `none` keys compare equal, as the comparator's `NaN` counts as
`+0`). -/
def keyLE : Option Nat → Option Nat → Bool
  | some a, some b => a ≤ b
  | some _, none => true
  | none, some _ => false
  | none, none => true

/-- Stable insertion of an entry into an already sorted list: the new
entry goes before the first element it does not strictly follow. -/
def insertA (x : Abstract) : List Abstract → List Abstract
  | [] => [x]
  | y :: ys => if keyLE (sortKey x) (sortKey y) then x :: y :: ys else y :: insertA x ys

/-- Stable sort by the numeric comparator; the model of
`abstracts.sort((a, b) => extractNumericId(a.abstractId) -
extractNumericId(b.abstractId))` (ECMAScript sort is stable, and a
stable sort by a total preorder is unique). -/
def sortAbstracts : List Abstract → List Abstract
  | [] => []
  | x :: xs => insertA x (sortAbstracts xs)

/-- The combined entry list before sorting: file-backed entries in input
order followed by spreadsheet-only entries in row order. -/
def combinedEntries (files : List ScannedFile) (rows : Option (List SpreadsheetRow))
    (pl : List ParsedFilename) : List Abstract :=
  fileEntriesGo rows 0 files pl ++ rowEntries files pl rows

/-- Model of `generateAbstractList`: merge scanned files with spreadsheet
rows and sort by numeric abstract id. -/
def generateAbstractList (files : List ScannedFile) (rows : Option (List SpreadsheetRow))
    (pl : List ParsedFilename) : List Abstract :=
  sortAbstracts (combinedEntries files rows pl)

/-- The presentation payload stored per room
(the `PresentationData` interface of route.ts). -/
structure PresentationData where
  id : String
  title : String
  author : String
  description : String
  thumbnail : String
  fileUrl : String
  fileType : String
  localFileName : Option String
  isLocalFile : Option Bool
  localFileData : Option String
deriving DecidableEq, Repr

/-- The per-room state (the `PresentationState` interface of route.ts). -/
structure PresentationState where
  abstract : Option PresentationData
  timestamp : Nat
  version : Nat
deriving DecidableEq, Repr

/-- The Redis key-value store, keyed by room key. -/
def Store : Type := String → Option PresentationState

/-- Model of `getRoomKey`. -/
def getRoomKey (roomId : String) : String := "presentation:" ++ roomId

/-- Point update of the store (`redis.set`; the TTL is not modelled). -/
def storeSet (store : Store) (k : String) (v : PresentationState) : Store :=
  fun k' => if k' = k then some v else store k'

/-- Response of the GET handler.  `abstract`/`timestamp` are `none` when
the JSON response omits the field (the unchanged case); in the other
cases `abstract` carries the nullable payload. -/
structure GetResponse where
  changed : Bool
  abstract : Option (Option PresentationData)
  timestamp : Option Nat
  version : Nat
deriving DecidableEq, Repr

/-- Response of the POST handler (success flag, new version when any,
and HTTP status). -/
structure PostResponse where
  success : Bool
  version : Option Nat
  status : Nat
deriving DecidableEq, Repr

/-- Model of the GET handler of route.ts: absent room answers
`changed := (clientVersion == 0)` with a null payload and version 0; an
up-to-date client gets `changed := false` with no payload; otherwise the
full state is returned. -/
def GET (store : Store) (roomId : String) (clientVersion : Nat) (now : Nat) : GetResponse :=
  match store (getRoomKey roomId) with
  | none =>
    { changed := clientVersion == 0, abstract := some none,
      timestamp := some now, version := 0 }
  | some room =>
    if clientVersion = room.version then
      { changed := false, abstract := none, timestamp := none, version := room.version }
    else
      { changed := true, abstract := some room.abstract,
        timestamp := some room.timestamp, version := room.version }

/-- The room's current stored version as the POST handler reads it
(`current?.version || 0`). -/
def storedVersion (store : Store) (roomId : String) : Nat :=
  match store (getRoomKey roomId) with
  | some s => s.version
  | none => 0

/-- Model of the POST handler of route.ts: `present_abstract` and
`close_presentation` unconditionally store a fresh state with the
version bumped by one; any other action type returns a 400 failure and
leaves every room untouched. -/
def POST (store : Store) (ty : String) (data : Option PresentationData)
    (roomId : String) (now : Nat) : PostResponse × Store :=
  let roomKey := getRoomKey roomId
  let currentVersion := storedVersion store roomId
  if ty = "present_abstract" then
    let newState : PresentationState :=
      { abstract := data, timestamp := now, version := currentVersion + 1 }
    ({ success := true, version := some newState.version, status := 200 },
      storeSet store roomKey newState)
  else if ty = "close_presentation" then
    let newState : PresentationState :=
      { abstract := none, timestamp := now, version := currentVersion + 1 }
    ({ success := true, version := some newState.version, status := 200 },
      storeSet store roomKey newState)
  else
    ({ success := false, version := none, status := 400 }, store)

/-- A sequence of write requests against one room (action type, payload,
timestamp of arrival). -/
structure WriteReq where
  type : String
  data : Option PresentationData
  now : Nat

/-- Apply a sequence of write requests to one room, collecting the
version numbers the server returns (`0` for a rejected write, which
never happens for valid action types). -/
def applyWrites (store : Store) (roomId : String) : List WriteReq → Store × List Nat
  | [] => (store, [])
  | w :: ws =>
    let r := POST store w.type w.data roomId w.now
    let rest := applyWrites r.2 roomId ws
    (rest.1, (r.1.version.getD 0) :: rest.2)

/-- An action type the POST handler accepts. -/
def validWriteType (ty : String) : Prop :=
  ty = "present_abstract" ∨ ty = "close_presentation"

instance (ty : String) : Decidable (validWriteType ty) := by
  unfold validWriteType
  infer_instance

/-- The padded input `"ABS-" + p + n` of the normalization property:
`p` leading zeros followed by the decimal rendering of `n`. -/
def absPadded (p n : Nat) : String :=
  String.mk ('A' :: 'B' :: 'S' :: '-' :: (List.replicate p '0' ++ decRender n))

/-- The store of a never-written deployment. -/
def emptyStore : Store := fun _ => none

/-- A concrete room state used by the read-contract witness. -/
def demoRoomState : PresentationState :=
  { abstract := none, timestamp := 5, version := 3 }

/-- A concrete store holding one room at version 3. -/
def demoStore : Store := storeSet emptyStore (getRoomKey "default") demoRoomState

/-- A concrete store holding state for room B, used by the isolation
witness. -/
def demoStoreB : Store :=
  storeSet emptyStore (getRoomKey "B") { abstract := none, timestamp := 2, version := 7 }

/-- The normalized ids of a row list (rows that fail normalization are
skipped, as in the spreadsheet-map construction). -/
def rowNormIds (rs : List SpreadsheetRow) : List String :=
  rs.filterMap (fun r => normalizeAbstractId r.abstractId)

/-- The normalized ids of an optional row list. -/
def rowNormIdsOpt : Option (List SpreadsheetRow) → List String
  | none => []
  | some rs => rowNormIds rs

/-- The number of spreadsheet rows whose normalized id matches some
scanned file's normalized id (the `m` of the merge-completeness
property). -/
def matchedRowCount (files : List ScannedFile) (pl : List ParsedFilename)
    (rs : List SpreadsheetRow) : Nat :=
  rs.countP (fun r =>
    match normalizeAbstractId r.abstractId with
    | some n => decide (n ∈ fileNorms files pl)
    | none => false)

/-- The number of scanned files whose normalized id matches some
spreadsheet row's normalized id (the file entries that receive
spreadsheet-sourced metadata). -/
def matchedFileCount (files : List ScannedFile) (pl : List ParsedFilename)
    (rs : List SpreadsheetRow) : Nat :=
  (fileNorms files pl).countP (fun n => decide (n ∈ rowNormIds rs))

/-- A parsed-filename record is well formed when its abstract id, if
present, is nonempty and normalizable — the invariant `parseFilename`
guarantees for every record it produces. -/
def wfParsed (p : ParsedFilename) : Bool :=
  match p.abstractId with
  | none => true
  | some s => s != "" && (normalizeAbstractId s).isSome

/-- A scanned file with a parseable id, used by counterexamples. -/
def cexFileAbs1 : ScannedFile := { name := "A ABS-1.pdf", fileType := "pdf", handle := 0 }

/-- A spreadsheet row whose identifier does not match the ABS pattern. -/
def cexRowXYZ : SpreadsheetRow :=
  { abstractId := "XYZ", title := "T", author := "Au", description := "D", extra := [] }

/-- A second spreadsheet row with a non-ABS identifier. -/
def cexRowNonAbs : SpreadsheetRow :=
  { abstractId := "XYZ-1", title := "T", author := "A", description := "D", extra := [] }

/-- Two scanned files whose filenames carry the same abstract id. -/
def cexFilesDup : List ScannedFile :=
  [{ name := "A ABS-5.pdf", fileType := "pdf", handle := 0 },
   { name := "B ABS-5.pdf", fileType := "pdf", handle := 1 }]

/-- A spreadsheet row with id ABS-10 (the spreadsheet-only scenario). -/
def wRow10 : SpreadsheetRow :=
  { abstractId := "ABS-10", title := "Ten", author := "A2", description := "D2", extra := [] }

/-- A spreadsheet row whose id carries leading zeros. -/
def wRow1 : SpreadsheetRow :=
  { abstractId := "ABS-0001", title := "One", author := "A1", description := "D1", extra := [] }

/-- A mixed scanned-file list (one unparseable name, two parseable). -/
def wFilesMix : List ScannedFile :=
  [{ name := "no-id.pdf", fileType := "pdf", handle := 0 },
   { name := "X ABS-20.pdf", fileType := "pdf", handle := 1 },
   { name := "Y ABS-3.pdf", fileType := "pdf", handle := 2 }]

/-! ### Decimal rendering lemmas -/

theorem digitVal_digitChar {n : Nat} (h : n < 10) : digitVal (Nat.digitChar n) = n := by
  interval_cases n <;> rfl

theorem isDigitC_digitChar {n : Nat} (h : n < 10) : isDigitC (Nat.digitChar n) = true := by
  interval_cases n <;> rfl

theorem digitsToNat_concat (xs : List Char) (c : Char) :
    digitsToNat (xs ++ [c]) = 10 * digitsToNat xs + digitVal c := by
  simp [digitsToNat, List.foldl_append]

theorem foldl_replicate_zero (p : Nat) :
    (List.replicate p '0').foldl (fun a c => 10 * a + digitVal c) 0 = 0 := by
  induction p with
  | zero => rfl
  | succ p ih => simpa [List.replicate_succ, digitVal] using ih

theorem digitsToNat_replicate_zero_append (p : Nat) (ds : List Char) :
    digitsToNat (List.replicate p '0' ++ ds) = digitsToNat ds := by
  simp [digitsToNat, List.foldl_append, foldl_replicate_zero]

theorem digitsToNat_decRenderAux {fuel n : Nat} (h : n < fuel) :
    digitsToNat (decRenderAux fuel n) = n := by
  induction fuel generalizing n with
  | zero => omega
  | succ fuel ih =>
    by_cases h10 : n < 10
    · simp only [decRenderAux, if_pos h10, digitsToNat, List.foldl_cons, List.foldl_nil]
      simp [digitVal_digitChar h10]
    · have hdiv : n / 10 < n := Nat.div_lt_self (by omega) (by omega)
      have hfuel : n / 10 < fuel := by omega
      rw [decRenderAux, if_neg h10, digitsToNat_concat, ih hfuel,
        digitVal_digitChar (Nat.mod_lt n (by omega))]
      omega

theorem digitsToNat_decRender (n : Nat) : digitsToNat (decRender n) = n :=
  digitsToNat_decRenderAux (Nat.lt_succ_self n)

theorem decRenderAux_all_digits (fuel n : Nat) :
    ∀ c ∈ decRenderAux fuel n, isDigitC c = true := by
  induction fuel generalizing n with
  | zero => intro c hc; simp [decRenderAux] at hc
  | succ fuel ih =>
    intro c hc
    by_cases h10 : n < 10
    · simp only [decRenderAux, if_pos h10, List.mem_singleton] at hc
      subst hc; exact isDigitC_digitChar h10
    · simp only [decRenderAux, if_neg h10, List.mem_append, List.mem_singleton] at hc
      rcases hc with hc | hc
      · exact ih _ c hc
      · subst hc; exact isDigitC_digitChar (Nat.mod_lt n (by omega))

theorem decRender_all_digits (n : Nat) : ∀ c ∈ decRender n, isDigitC c = true :=
  decRenderAux_all_digits (n + 1) n

theorem decRender_ne_nil (n : Nat) : decRender n ≠ [] := by
  unfold decRender decRenderAux
  by_cases h10 : n < 10 <;> simp [h10]

theorem decRender_injective {n1 n2 : Nat} (h : decRender n1 = decRender n2) : n1 = n2 := by
  have := digitsToNat_decRender n1
  rw [h, digitsToNat_decRender] at this
  omega

theorem natToStr_injective {n1 n2 : Nat} (h : natToStr n1 = natToStr n2) : n1 = n2 := by
  apply decRender_injective
  have : (natToStr n1).data = (natToStr n2).data := by rw [h]
  simpa [natToStr] using this

/-! ### Leftmost-match lemmas -/

theorem takeWhile_all {p : Char → Bool} {l : List Char} (h : ∀ c ∈ l, p c = true) :
    l.takeWhile p = l := by
  induction l with
  | nil => rfl
  | cons c cs ih =>
    rw [List.takeWhile_cons, h c (List.mem_cons_self c cs)]
    simpa using ih (fun x hx => h x (List.mem_cons_of_mem c hx))

theorem dropWhile_all {p : Char → Bool} {l : List Char} (h : ∀ c ∈ l, p c = true) :
    l.dropWhile p = [] := by
  induction l with
  | nil => rfl
  | cons c cs ih =>
    rw [List.dropWhile_cons, h c (List.mem_cons_self c cs)]
    simpa using ih (fun x hx => h x (List.mem_cons_of_mem c hx))

theorem findAbs_all_digits {ds : List Char} (hne : ds ≠ [])
    (hdig : ∀ c ∈ ds, isDigitC c = true) :
    findAbs ('A' :: 'B' :: 'S' :: '-' :: ds) = some ([], ds, []) := by
  have htake := takeWhile_all hdig
  have hdrop := dropWhile_all hdig
  simp only [findAbs, absHere]
  rw [if_pos (by decide)]
  simp [htake, hdrop, hne]

theorem normalizeAbstractId_absPadded (p n : Nat) :
    normalizeAbstractId (absPadded p n) = some ("ABS-" ++ natToStr n) := by
  have hdig : ∀ c ∈ List.replicate p '0' ++ decRender n, isDigitC c = true := by
    intro c hc
    rcases List.mem_append.mp hc with hc | hc
    · rcases List.eq_of_mem_replicate hc with rfl; rfl
    · exact decRender_all_digits n c hc
  have hne : List.replicate p '0' ++ decRender n ≠ [] := by
    intro h
    exact decRender_ne_nil n (List.append_eq_nil.mp h).2
  unfold normalizeAbstractId absPadded
  rw [show (String.mk ('A' :: 'B' :: 'S' :: '-' :: (List.replicate p '0' ++ decRender n))).data
      = 'A' :: 'B' :: 'S' :: '-' :: (List.replicate p '0' ++ decRender n) from rfl]
  rw [findAbs_all_digits hne hdig]
  simp [digitsToNat_replicate_zero_append, digitsToNat_decRender]

/-- C5.  Normalization equivalence and injectivity: for all integers
`n ≥ 0` and all leading-zero paddings `p1`, `p2`,
`normalizeAbstractId("ABS-" + p1 + n)` equals
`normalizeAbstractId("ABS-" + p2 + n)`; and for distinct integers
`n1 ≠ n2` the two normalized outputs differ. -/
theorem normalizeAbstractId_padding_equiv_injective :
    (∀ n p1 p2 : Nat,
      normalizeAbstractId (absPadded p1 n) = normalizeAbstractId (absPadded p2 n)) ∧
    (∀ n1 n2 p1 p2 : Nat, n1 ≠ n2 →
      normalizeAbstractId (absPadded p1 n1) ≠ normalizeAbstractId (absPadded p2 n2)) := by
  constructor
  · intro n p1 p2
    rw [normalizeAbstractId_absPadded, normalizeAbstractId_absPadded]
  · intro n1 n2 p1 p2 hne h
    rw [normalizeAbstractId_absPadded, normalizeAbstractId_absPadded] at h
    apply hne
    apply natToStr_injective
    have hd : ("ABS-" ++ natToStr n1).data = ("ABS-" ++ natToStr n2).data := by
      rw [Option.some.injEq] at h
      rw [h]
    simp only [String.data_append] at hd
    apply String.ext
    exact List.append_cancel_left hd

/-- Witness for C5 at concrete inputs. -/
theorem normalizeAbstractId_padding_equiv_injective_witness :
    normalizeAbstractId (absPadded 3 5) = normalizeAbstractId (absPadded 0 5) ∧
    (5 ≠ 7 ∧ normalizeAbstractId (absPadded 3 5) ≠ normalizeAbstractId (absPadded 0 7)) :=
  ⟨normalizeAbstractId_padding_equiv_injective.1 5 3 0,
    by decide,
    normalizeAbstractId_padding_equiv_injective.2 5 7 3 0 (by decide)⟩

/-! ### Presentation sync protocol -/

theorem getRoomKey_injective {a b : String} (h : getRoomKey a = getRoomKey b) : a = b := by
  have hd : (getRoomKey a).data = (getRoomKey b).data := by rw [h]
  simp only [getRoomKey, String.data_append] at hd
  exact String.ext (List.append_cancel_left hd)

theorem POST_valid_bump {store : Store} {ty : String} {d : Option PresentationData}
    {r : String} {now : Nat} (h : validWriteType ty) :
    storedVersion (POST store ty d r now).2 r = storedVersion store r + 1 ∧
    (POST store ty d r now).1.version = some (storedVersion store r + 1) := by
  rcases h with h | h <;> subst h <;>
    simp [POST, storedVersion, storeSet]

theorem applyWrites_versions (ws : List WriteReq) (store : Store) (r : String)
    (h : ∀ w ∈ ws, validWriteType w.type) :
    (applyWrites store r ws).2 =
      (List.range ws.length).map (fun i => storedVersion store r + i + 1) := by
  induction ws generalizing store with
  | nil => rfl
  | cons w ws ih =>
    have hw := @POST_valid_bump store w.type w.data r w.now
      (h w (List.mem_cons_self w ws))
    simp only [applyWrites, hw.2, Option.getD_some, List.length_cons,
      List.range_succ_eq_map, List.map_cons, List.map_map]
    rw [ih _ (fun x hx => h x (List.mem_cons_of_mem w hx)), hw.1]
    refine List.cons_eq_cons.mpr ⟨by omega, ?_⟩
    apply List.map_congr_left
    intro i _
    simp only [Function.comp_apply]
    omega

/-- C2.  Version write monotonicity: every write with a valid action type
(present or clear) increments the room's stored version by exactly one
relative to its current stored version, for every store and payload (so
in particular with a payload identical to the stored one); and for a
fresh room, a sequence of N valid writes returns the version sequence
1..N. -/
theorem version_write_monotonicity :
    (∀ (store : Store) (ty : String) (d : Option PresentationData) (r : String) (now : Nat),
      validWriteType ty →
      storedVersion (POST store ty d r now).2 r = storedVersion store r + 1) ∧
    (∀ (store : Store) (r : String) (ws : List WriteReq),
      store (getRoomKey r) = none →
      (∀ w ∈ ws, validWriteType w.type) →
      (applyWrites store r ws).2 = (List.range ws.length).map (fun i => i + 1)) := by
  constructor
  · intro store ty d r now h
    exact (POST_valid_bump h).1
  · intro store r ws hfresh hvalid
    rw [applyWrites_versions ws store r hvalid]
    have h0 : storedVersion store r = 0 := by simp [storedVersion, hfresh]
    simp [h0]

/-- Witness for C2: two writes (a present followed by a clear of the
identical payload situation) on a fresh room return versions 1, 2. -/
theorem version_write_monotonicity_witness :
    (validWriteType "present_abstract" ∧
      storedVersion (POST emptyStore "present_abstract" none "default" 0).2 "default" =
        storedVersion emptyStore "default" + 1) ∧
    (emptyStore (getRoomKey "default") = none ∧
      (applyWrites emptyStore "default"
        [{ type := "present_abstract", data := none, now := 0 },
         { type := "close_presentation", data := none, now := 1 }]).2 =
        (List.range 2).map (fun i => i + 1)) :=
  ⟨⟨Or.inl rfl,
      version_write_monotonicity.1 emptyStore "present_abstract" none "default" 0 (Or.inl rfl)⟩,
    rfl,
    version_write_monotonicity.2 emptyStore "default"
      [{ type := "present_abstract", data := none, now := 0 },
       { type := "close_presentation", data := none, now := 1 }]
      rfl (by decide)⟩

/-- C3.  Presenter read contract: for a room present in the store, a
read with `sinceVersion` equal to the current version returns
`changed = false` with no payload, and a read with any other value
returns `changed = true` with the current payload and version; a read on
an absent room with version 0 returns a changed response. -/
theorem presenter_read_contract :
    (∀ (store : Store) (r : String) (v now : Nat) (room : PresentationState),
      store (getRoomKey r) = some room →
      (v = room.version →
        GET store r v now =
          { changed := false, abstract := none, timestamp := none, version := room.version }) ∧
      (v ≠ room.version →
        GET store r v now =
          { changed := true, abstract := some room.abstract,
            timestamp := some room.timestamp, version := room.version })) ∧
    (∀ (store : Store) (r : String) (now : Nat),
      store (getRoomKey r) = none → (GET store r 0 now).changed = true) := by
  constructor
  · intro store r v now room hroom
    constructor
    · intro hv
      simp [GET, hroom, hv]
    · intro hv
      simp [GET, hroom, hv]
  · intro store r now hnone
    simp [GET, hnone]

/-- Witness for C3 on a concrete store holding one room at version 3. -/
theorem presenter_read_contract_witness :
    (demoStore (getRoomKey "default") = some demoRoomState ∧
      GET demoStore "default" 3 9 =
        { changed := false, abstract := none, timestamp := none,
          version := demoRoomState.version } ∧
      GET demoStore "default" 0 9 =
        { changed := true, abstract := some demoRoomState.abstract,
          timestamp := some demoRoomState.timestamp, version := demoRoomState.version }) ∧
    (emptyStore (getRoomKey "default") = none ∧
      (GET emptyStore "default" 0 7).changed = true) :=
  ⟨⟨by decide,
      (presenter_read_contract.1 demoStore "default" 3 9 demoRoomState (by decide)).1 rfl,
      (presenter_read_contract.1 demoStore "default" 0 9 demoRoomState (by decide)).2
        (by decide)⟩,
    rfl, presenter_read_contract.2 emptyStore "default" 7 rfl⟩

/-- C8.  Room isolation: a write of any action type addressed to room A
leaves the stored state (version and payload) of every other room B
unchanged; reads are pure by construction (`GET` returns a response and
no store). -/
theorem room_isolation :
    ∀ (store : Store) (ty : String) (d : Option PresentationData)
      (rA rB : String) (now : Nat), rB ≠ rA →
      (POST store ty d rA now).2 (getRoomKey rB) = store (getRoomKey rB) := by
  intro store ty d rA rB now hne
  have hkey : getRoomKey rB ≠ getRoomKey rA := fun h => hne (getRoomKey_injective h)
  unfold POST
  by_cases h1 : ty = "present_abstract"
  · simp [h1, storeSet, hkey]
  · by_cases h2 : ty = "close_presentation"
    · simp [h1, h2, storeSet, hkey]
    · simp [h1, h2]

/-- Witness for C8: presenting to room A does not disturb room B's
stored state. -/
theorem room_isolation_witness :
    "B" ≠ "A" ∧
    (POST demoStoreB "present_abstract" none "A" 10).2 (getRoomKey "B") =
      demoStoreB (getRoomKey "B") :=
  ⟨by decide, room_isolation demoStoreB "present_abstract" none "A" "B" 10 (by decide)⟩

/-- C10.  Invalid-action atomicity: a write whose action type is neither
`present_abstract` nor `close_presentation` yields `success = false`
with status 400 and performs no store write, leaving every room's state
and version unchanged. -/
theorem invalid_action_atomicity :
    ∀ (store : Store) (ty : String) (d : Option PresentationData) (r : String) (now : Nat),
      ty ≠ "present_abstract" → ty ≠ "close_presentation" →
      (POST store ty d r now).1.success = false ∧
      (POST store ty d r now).1.status = 400 ∧
      (POST store ty d r now).2 = store := by
  intro store ty d r now h1 h2
  unfold POST
  simp [h1, h2]

/-- Witness for C10 with the unknown action type `delete_room`. -/
theorem invalid_action_atomicity_witness :
    ("delete_room" ≠ "present_abstract" ∧ "delete_room" ≠ "close_presentation") ∧
    (POST emptyStore "delete_room" none "default" 4).1.success = false ∧
    (POST emptyStore "delete_room" none "default" 4).1.status = 400 ∧
    (POST emptyStore "delete_room" none "default" 4).2 = emptyStore :=
  ⟨⟨by decide, by decide⟩,
    invalid_action_atomicity emptyStore "delete_room" none "default" 4
      (by decide) (by decide)⟩

/-! ### Stable sort lemmas -/

theorem keyLE_trans {a b c : Option Nat} (h1 : keyLE a b = true) (h2 : keyLE b c = true) :
    keyLE a c = true := by
  cases a <;> cases b <;> cases c <;> simp [keyLE] at * <;> omega

theorem keyLE_false {a b : Option Nat} (h : keyLE a b = false) :
    keyLE b a = true ∧ b ≠ a := by
  cases a <;> cases b <;> simp [keyLE] at * <;> omega

theorem insertA_perm (x : Abstract) (l : List Abstract) : List.Perm (insertA x l) (x :: l) := by
  induction l with
  | nil => exact List.Perm.refl _
  | cons y ys ih =>
    rw [insertA]
    by_cases hle : keyLE (sortKey x) (sortKey y) = true
    · rw [if_pos hle]
    · rw [if_neg hle]
      exact (ih.cons y).trans (List.Perm.swap x y ys)

theorem sortAbstracts_perm (l : List Abstract) : List.Perm (sortAbstracts l) l := by
  induction l with
  | nil => exact List.Perm.refl _
  | cons x xs ih =>
    rw [sortAbstracts]
    exact (insertA_perm x (sortAbstracts xs)).trans (ih.cons x)

theorem insertA_pairwise {x : Abstract} {l : List Abstract}
    (h : l.Pairwise (fun a b => keyLE (sortKey a) (sortKey b) = true)) :
    (insertA x l).Pairwise (fun a b => keyLE (sortKey a) (sortKey b) = true) := by
  induction l with
  | nil => simp [insertA]
  | cons y ys ih =>
    rw [List.pairwise_cons] at h
    rw [insertA]
    by_cases hle : keyLE (sortKey x) (sortKey y) = true
    · rw [if_pos hle]
      refine List.pairwise_cons.mpr ⟨?_, List.pairwise_cons.mpr h⟩
      intro b hb
      rcases List.mem_cons.mp hb with rfl | hb
      · exact hle
      · exact keyLE_trans hle (h.1 b hb)
    · rw [if_neg hle]
      refine List.pairwise_cons.mpr ⟨?_, ih h.2⟩
      intro b hb
      rcases List.mem_cons.mp ((insertA_perm x ys).mem_iff.mp hb) with rfl | hb
      · exact (keyLE_false (Bool.eq_false_iff.mpr hle)).1
      · exact h.1 b hb

theorem sortAbstracts_sorted (l : List Abstract) :
    (sortAbstracts l).Pairwise (fun a b => keyLE (sortKey a) (sortKey b) = true) := by
  induction l with
  | nil => simp [sortAbstracts]
  | cons x xs ih =>
    rw [sortAbstracts]
    exact insertA_pairwise ih

theorem filter_insertA_eq {x : Abstract} {k : Option Nat} (l : List Abstract)
    (hk : sortKey x = k) :
    (insertA x l).filter (fun a => decide (sortKey a = k)) =
      x :: l.filter (fun a => decide (sortKey a = k)) := by
  induction l with
  | nil => simp [insertA, hk]
  | cons y ys ih =>
    rw [insertA]
    by_cases hle : keyLE (sortKey x) (sortKey y) = true
    · rw [if_pos hle, List.filter_cons, List.filter_cons]
      simp [hk]
    · rw [if_neg hle]
      have hy : sortKey y ≠ k := by
        intro hy
        exact (keyLE_false (Bool.eq_false_iff.mpr hle)).2 (hy.trans hk.symm)
      rw [List.filter_cons, List.filter_cons]
      simp only [decide_eq_true_eq]
      rw [if_neg (by simpa using hy), if_neg (by simpa using hy)]
      exact ih

theorem filter_insertA_ne {x : Abstract} {k : Option Nat} (l : List Abstract)
    (hk : sortKey x ≠ k) :
    (insertA x l).filter (fun a => decide (sortKey a = k)) =
      l.filter (fun a => decide (sortKey a = k)) := by
  induction l with
  | nil => simp [insertA, hk]
  | cons y ys ih =>
    rw [insertA]
    by_cases hle : keyLE (sortKey x) (sortKey y) = true
    · rw [if_pos hle]
      simp only [List.filter_cons, decide_eq_true_eq, if_neg hk]
    · rw [if_neg hle, List.filter_cons, List.filter_cons]
      by_cases hy : sortKey y = k
      · rw [if_pos (by simpa using hy), if_pos (by simpa using hy), ih]
      · rw [if_neg (by simpa using hy), if_neg (by simpa using hy)]
        exact ih

theorem sortAbstracts_filter (l : List Abstract) (k : Option Nat) :
    (sortAbstracts l).filter (fun a => decide (sortKey a = k)) =
      l.filter (fun a => decide (sortKey a = k)) := by
  induction l with
  | nil => rfl
  | cons x xs ih =>
    rw [sortAbstracts, List.filter_cons]
    by_cases hk : sortKey x = k
    · rw [filter_insertA_eq _ hk, ih, if_pos (by simpa using hk)]
    · rw [filter_insertA_ne _ hk, ih, if_neg (by simpa using hk)]

/-- C4.  Merge sort invariant: every merged list is non-decreasing by
the numeric key extracted from `abstractId` (with missing keys as
infinity, so entries lacking a parseable numeric id appear after all
entries that have one), and the sort is stable: for every key, the
entries with that key appear in the same order as in the pre-sort
combined list. -/
theorem merge_sort_invariant :
    ∀ (files : List ScannedFile) (rows : Option (List SpreadsheetRow))
      (pl : List ParsedFilename),
      (generateAbstractList files rows pl).Pairwise
        (fun a b => keyLE (sortKey a) (sortKey b) = true) ∧
      (∀ k : Option Nat,
        (generateAbstractList files rows pl).filter (fun a => decide (sortKey a = k)) =
          (combinedEntries files rows pl).filter (fun a => decide (sortKey a = k))) ∧
      (generateAbstractList files rows pl).Pairwise
        (fun a b => sortKey a = none → sortKey b = none) := by
  intro files rows pl
  refine ⟨sortAbstracts_sorted _, fun k => sortAbstracts_filter _ k, ?_⟩
  refine (sortAbstracts_sorted _).imp ?_
  intro a b h ha
  cases hb : sortKey b with
  | none => rfl
  | some v => rw [ha, hb] at h; simp [keyLE] at h

/-! ### Author extraction -/

/-- C9.  Author extraction contract: when the filename (extension
stripped) contains an `ABS-digits` match, the prefix before the match is
cleaned by the underscore/hyphen replacement, whitespace collapse, trim
and trailing-New strip pipeline; the author is null exactly when the
cleaned candidate is empty or every whitespace-separated token matches
`[A-Z0-9]+`, and otherwise the author equals the cleaned candidate; in
particular `parseFilename "OSSAP-023-OSSAP-023-ABS-76-final.pptx"`
yields a null author. -/
theorem author_extraction_contract :
    (∀ (f : String) (pre ds rest : List Char),
      findAbs (stripExtension f.data) = some (pre, ds, rest) →
      ((parseFilename f).author = none ↔
        (cleanAuthorCandidate pre = [] ∨
          isCodePrefixLike (cleanAuthorCandidate pre) = true)) ∧
      (cleanAuthorCandidate pre ≠ [] →
        isCodePrefixLike (cleanAuthorCandidate pre) = false →
        (parseFilename f).author = some (String.mk (cleanAuthorCandidate pre)))) ∧
    parseFilename "OSSAP-023-OSSAP-023-ABS-76-final.pptx" =
      { abstractId := some "ABS-76", author := none, title := "ABS-76",
        rawFilename := "OSSAP-023-OSSAP-023-ABS-76-final.pptx" } := by
  constructor
  · intro f pre ds rest h
    have hauthor : (parseFilename f).author = extractAuthor pre := by
      simp [parseFilename, h]
    rw [hauthor]
    unfold extractAuthor
    by_cases hcond :
        ((cleanAuthorCandidate pre).isEmpty || isCodePrefixLike (cleanAuthorCandidate pre)) = true
    · rw [if_pos hcond]
      rcases Bool.or_eq_true_iff.mp hcond with hc | hc
      · simp [List.isEmpty_iff.mp hc]
      · simp [hc]
    · rw [if_neg hcond]
      simp only [Bool.or_eq_true_iff, not_or, Bool.not_eq_true] at hcond
      refine ⟨⟨fun h' => absurd h' (Option.some_ne_none _), fun h' => ?_⟩, fun _ _ => rfl⟩
      rcases h' with h' | h'
      · rw [h'] at hcond
        exact absurd hcond.1 (by simp)
      · exact absurd h' (by simp [hcond.2])
  · decide

/-- Witness for C9 on a filename with an accepted human-name prefix. -/
theorem author_extraction_contract_witness :
    findAbs (stripExtension ("Jane Doe ABS-200.png").data) =
      some (("Jane Doe ").data, ("200").data, []) ∧
    ((parseFilename "Jane Doe ABS-200.png").author = none ↔
      (cleanAuthorCandidate ("Jane Doe ").data = [] ∨
        isCodePrefixLike (cleanAuthorCandidate ("Jane Doe ").data) = true)) ∧
    (parseFilename "Jane Doe ABS-200.png").author = some (String.mk (cleanAuthorCandidate ("Jane Doe ").data)) :=
  ⟨by decide,
    (author_extraction_contract.1 "Jane Doe ABS-200.png" ("Jane Doe ").data ("200").data []
      (by decide)).1,
    (author_extraction_contract.1 "Jane Doe ABS-200.png" ("Jane Doe ").data ("200").data []
      (by decide)).2 (by decide) (by decide)⟩

/-! ### Shape lemmas for normalized ids and parsed filenames -/

theorem takeWhile_pred {p : Char → Bool} : ∀ {l : List Char}, ∀ c ∈ l.takeWhile p, p c = true := by
  intro l
  induction l with
  | nil => intro c hc; simp at hc
  | cons x xs ih =>
    intro c hc
    rw [List.takeWhile_cons] at hc
    by_cases hx : p x = true
    · rw [if_pos hx] at hc
      rcases List.mem_cons.mp hc with rfl | hc
      · exact hx
      · exact ih c hc
    · rw [if_neg hx] at hc
      simp at hc

theorem absHere_spec {l ds rest : List Char} (h : absHere l = some (ds, rest)) :
    ds ≠ [] ∧ ∀ c ∈ ds, isDigitC c = true := by
  match l with
  | [] => simp [absHere] at h
  | [a] => simp [absHere] at h
  | [a, b] => simp [absHere] at h
  | [a, b, s] => simp [absHere] at h
  | a :: b :: s :: d :: r =>
    rw [absHere] at h
    by_cases hcond : (a.toLower = 'a' && b.toLower = 'b' && s.toLower = 's' && d = '-') = true
    · rw [if_pos hcond] at h
      by_cases hemp : (r.takeWhile isDigitC).isEmpty = true
      · simp [hemp] at h
      · simp only [Bool.not_eq_true] at hemp
        rw [if_neg (by simp [hemp])] at h
        rcases Option.some.inj h with h'
        rw [Prod.mk.injEq] at h'
        refine ⟨?_, ?_⟩
        · rw [← h'.1]
          intro hnil
          rw [hnil] at hemp
          simp at hemp
        · intro c hc
          rw [← h'.1] at hc
          exact takeWhile_pred c hc
    · rw [if_neg hcond] at h
      simp at h

theorem findAbs_spec : ∀ {l pre ds rest : List Char},
    findAbs l = some (pre, ds, rest) → ds ≠ [] ∧ ∀ c ∈ ds, isDigitC c = true := by
  intro l
  induction l with
  | nil => intro pre ds rest h; simp [findAbs] at h
  | cons c cs ih =>
    intro pre ds rest h
    rw [findAbs] at h
    cases hh : absHere (c :: cs) with
    | some v =>
      rcases v with ⟨ds', rest'⟩
      rw [hh] at h
      rcases Option.some.inj h with h'
      rw [Prod.mk.injEq] at h'
      rcases h'.2 with h2
      rw [Prod.mk.injEq] at h2
      rcases absHere_spec hh with ⟨hne, hdig⟩
      rw [← h2.1]
      exact ⟨hne, hdig⟩
    | none =>
      rw [hh] at h
      cases hrec : findAbs cs with
      | some v =>
        rcases v with ⟨pre', ds', rest'⟩
        rw [hrec] at h
        rcases Option.some.inj h with h'
        rw [Prod.mk.injEq] at h'
        rcases h'.2 with h2
        rw [Prod.mk.injEq] at h2
        rcases ih hrec with ⟨hne, hdig⟩
        rw [← h2.1]
        exact ⟨hne, hdig⟩
      | none => rw [hrec] at h; simp at h

theorem data_abs_natToStr (v : Nat) :
    ("ABS-" ++ natToStr v).data = 'A' :: 'B' :: 'S' :: '-' :: decRender v := by
  simp [natToStr, String.data_append]

theorem normalizeAbstractId_shape {s t : String} (h : normalizeAbstractId s = some t) :
    ∃ v : Nat, t = "ABS-" ++ natToStr v := by
  unfold normalizeAbstractId at h
  cases hf : findAbs s.data with
  | none => rw [hf] at h; simp at h
  | some w =>
    rcases w with ⟨pre, ds, rest⟩
    rw [hf] at h
    exact ⟨digitsToNat ds, (Option.some.inj h).symm⟩

theorem normalized_ne_empty {s t : String} (h : normalizeAbstractId s = some t) : t ≠ "" := by
  rcases normalizeAbstractId_shape h with ⟨v, rfl⟩
  intro he
  have : ("ABS-" ++ natToStr v).data = ("" : String).data := by rw [he]
  rw [data_abs_natToStr] at this
  simp at this

theorem extractNumericId_abs_natToStr (v : Nat) :
    extractNumericId (some ("ABS-" ++ natToStr v)) = some v := by
  have hne : ("ABS-" ++ natToStr v) ≠ "" := by
    intro he
    have hd : ("ABS-" ++ natToStr v).data = ("" : String).data := by rw [he]
    rw [data_abs_natToStr] at hd
    simp at hd
  simp only [extractNumericId]
  rw [if_neg hne, data_abs_natToStr,
    findAbs_all_digits (decRender_ne_nil v) (decRender_all_digits v)]
  simp [digitsToNat_decRender]

theorem extractNumericId_normalized {s t : String} (h : normalizeAbstractId s = some t) :
    ∃ v : Nat, extractNumericId (some t) = some v := by
  rcases normalizeAbstractId_shape h with ⟨v, rfl⟩
  exact ⟨v, extractNumericId_abs_natToStr v⟩

theorem data_abs_mk (ds : List Char) :
    ("ABS-" ++ String.mk ds).data = 'A' :: 'B' :: 'S' :: '-' :: ds := by
  simp [String.data_append]

theorem normalizeAbstractId_abs_mk {ds : List Char} (hne : ds ≠ [])
    (hdig : ∀ c ∈ ds, isDigitC c = true) :
    normalizeAbstractId ("ABS-" ++ String.mk ds) =
      some ("ABS-" ++ natToStr (digitsToNat ds)) := by
  simp only [normalizeAbstractId]
  rw [data_abs_mk, findAbs_all_digits hne hdig]

theorem abs_mk_ne_empty (ds : List Char) : ("ABS-" ++ String.mk ds) ≠ "" := by
  intro he
  have hd : ("ABS-" ++ String.mk ds).data = ("" : String).data := by rw [he]
  rw [data_abs_mk] at hd
  simp at hd

theorem wfParsed_parseFilename (s : String) : wfParsed (parseFilename s) = true := by
  cases hf : findAbs (stripExtension s.data) with
  | none => simp [parseFilename, hf, wfParsed]
  | some w =>
    rcases w with ⟨pre, ds, rest⟩
    rcases findAbs_spec hf with ⟨hne, hdig⟩
    simp [parseFilename, hf, wfParsed, normalizeAbstractId_abs_mk hne hdig,
      bne_iff_ne, abs_mk_ne_empty]

theorem wf_headParsed {pl : List ParsedFilename} (f : ScannedFile)
    (hwf : ∀ p ∈ pl, wfParsed p = true) : wfParsed (headParsed pl f) = true := by
  cases pl with
  | nil => exact wfParsed_parseFilename f.name
  | cons p ps => exact hwf p (List.mem_cons_self p ps)

theorem fileEntry_abstractId_wf {p : ParsedFilename} (rows : Option (List SpreadsheetRow))
    (i : Nat) (f : ScannedFile) (hwf : wfParsed p = true) :
    (fileEntry rows p i f).abstractId = fileNormOf p := by
  cases hp : p.abstractId with
  | none =>
    simp [fileEntry, fileNormOf, hp, jsOptTruthy]
  | some s =>
    rw [wfParsed, hp] at hwf
    rcases Bool.and_eq_true_iff.mp hwf with ⟨hs, hsome⟩
    cases hn : normalizeAbstractId s with
    | none => rw [hn] at hsome; simp at hsome
    | some t =>
      have hne : s ≠ "" := by simpa using hs
      have htne : t ≠ "" := normalized_ne_empty hn
      simp [fileEntry, fileNormOf, hp, hn, hne, jsOptTruthy, htne]

theorem fileEntry_none_id {p : ParsedFilename} (rows : Option (List SpreadsheetRow))
    (i : Nat) (f : ScannedFile) (h : (fileEntry rows p i f).abstractId = none) :
    (fileEntry rows p i f).id = "file-" ++ natToStr i := by
  cases hp : p.abstractId with
  | none =>
    simp [fileEntry, fileNormOf, hp, jsOptTruthy]
  | some s =>
    by_cases hs : s = ""
    · simp [fileEntry, fileNormOf, hp, hs, jsOptTruthy]
    · cases hn : normalizeAbstractId s with
      | none =>
        simp [fileEntry, fileNormOf, hp, hn, hs, jsOptTruthy] at h
      | some t =>
        by_cases ht : t = ""
        · simp [fileEntry, fileNormOf, hp, hn, hs, ht, jsOptTruthy]
        · simp [fileEntry, fileNormOf, hp, hn, hs, ht, jsOptTruthy] at h

/-! ### Membership lemmas for the combined entry list -/

theorem fileNormOf_some {p : ParsedFilename} {n : String} (h : fileNormOf p = some n) :
    ∃ s, normalizeAbstractId s = some n := by
  unfold fileNormOf at h
  cases hp : p.abstractId with
  | none => simp only [hp] at h; simp at h
  | some s =>
    simp only [hp] at h
    by_cases hs : s = ""
    · rw [if_pos hs] at h; simp at h
    · rw [if_neg hs] at h; exact ⟨s, h⟩

theorem mapFind_isSome_of_mem {rs : List SpreadsheetRow} {r : SpreadsheetRow} {n : String}
    (hr : r ∈ rs) (hn : normalizeAbstractId r.abstractId = some n) :
    (mapFind (some rs) n).isSome = true := by
  simp only [mapFind]
  rw [List.getLast?_isSome]
  exact List.ne_nil_of_mem (List.mem_filter.mpr ⟨hr, by simp [hn]⟩)

theorem fileEntriesGo_mem_absId (rows : Option (List SpreadsheetRow)) :
    ∀ (files : List ScannedFile) (pl : List ParsedFilename) (i : Nat) (a : Abstract),
      (∀ p ∈ pl, wfParsed p = true) → a ∈ fileEntriesGo rows i files pl →
      a.abstractId = none ∨
        ∃ n, a.abstractId = some n ∧ n ∈ fileNorms files pl ∧
          ∃ v, extractNumericId (some n) = some v := by
  intro files
  induction files with
  | nil => intro pl i a _ ha; simp [fileEntriesGo] at ha
  | cons f fs ih =>
    intro pl i a hwf ha
    rw [fileEntriesGo] at ha
    have hwfh : wfParsed (headParsed pl f) = true := wf_headParsed f hwf
    have hwft : ∀ p ∈ pl.tail, wfParsed p = true :=
      fun p hp => hwf p (List.mem_of_mem_tail hp)
    rcases List.mem_cons.mp ha with rfl | ha
    · rw [fileEntry_abstractId_wf rows i f hwfh]
      cases hn : fileNormOf (headParsed pl f) with
      | none => exact Or.inl rfl
      | some n =>
        refine Or.inr ⟨n, rfl, ?_, ?_⟩
        · simp only [fileNorms, hn]
          exact List.mem_cons_self _ _
        · rcases fileNormOf_some hn with ⟨s, hs⟩
          exact extractNumericId_normalized hs
    · rcases ih pl.tail (i + 1) a hwft ha with h | ⟨n, h1, h2, h3⟩
      · exact Or.inl h
      · refine Or.inr ⟨n, h1, ?_, h3⟩
        cases hn : fileNormOf (headParsed pl f) with
        | none => simpa [fileNorms, hn] using h2
        | some m =>
          simp only [fileNorms, hn]
          exact List.mem_cons_of_mem m h2

theorem fileEntriesGo_none_id (rows : Option (List SpreadsheetRow)) :
    ∀ (files : List ScannedFile) (pl : List ParsedFilename) (i : Nat) (a : Abstract),
      a ∈ fileEntriesGo rows i files pl → a.abstractId = none →
      ∃ j, j < files.length ∧ a.id = "file-" ++ natToStr (i + j) := by
  intro files
  induction files with
  | nil => intro pl i a ha _; simp [fileEntriesGo] at ha
  | cons f fs ih =>
    intro pl i a ha hnone
    rw [fileEntriesGo] at ha
    rcases List.mem_cons.mp ha with rfl | ha
    · exact ⟨0, by simp, by rw [fileEntry_none_id rows i f hnone, Nat.add_zero]⟩
    · rcases ih pl.tail (i + 1) a ha hnone with ⟨j, hj, hid⟩
      refine ⟨j + 1, by simpa using hj, ?_⟩
      rw [hid]
      have : i + 1 + j = i + (j + 1) := by omega
      rw [this]

theorem fileEntriesGo_pairwise (rows : Option (List SpreadsheetRow)) :
    ∀ (files : List ScannedFile) (pl : List ParsedFilename) (i : Nat),
      (∀ p ∈ pl, wfParsed p = true) → (fileNorms files pl).Nodup →
      (fileEntriesGo rows i files pl).Pairwise
        (fun a b => ¬(a.abstractId.isSome = true ∧ a.abstractId = b.abstractId)) := by
  intro files
  induction files with
  | nil => intro pl i _ _; simp [fileEntriesGo]
  | cons f fs ih =>
    intro pl i hwf hnd
    have hwfh : wfParsed (headParsed pl f) = true := wf_headParsed f hwf
    have hwft : ∀ p ∈ pl.tail, wfParsed p = true :=
      fun p hp => hwf p (List.mem_of_mem_tail hp)
    rw [fileEntriesGo]
    refine List.pairwise_cons.mpr ⟨?_, ?_⟩
    · intro b hb
      rw [fileEntry_abstractId_wf rows i f hwfh]
      cases hn : fileNormOf (headParsed pl f) with
      | none => simp
      | some n =>
        have hnd' : n ∉ fileNorms fs pl.tail := by
          have h2 := hnd
          simp only [fileNorms, hn] at h2
          exact (List.nodup_cons.mp h2).1
        rintro ⟨_, heq⟩
        rcases fileEntriesGo_mem_absId rows fs pl.tail (i + 1) b hwft hb with
          hbnone | ⟨m, hbm, hmem, _⟩
        · rw [hbnone] at heq; simp at heq
        · rw [hbm] at heq
          rcases Option.some.inj heq with rfl
          exact hnd' hmem
    · apply ih pl.tail (i + 1) hwft
      cases hn : fileNormOf (headParsed pl f) with
      | none => simpa [fileNorms, hn] using hnd
      | some n =>
        have h2 := hnd
        simp only [fileNorms, hn] at h2
        exact (List.nodup_cons.mp h2).2

theorem rowFilterMap_mem {M : String → Bool} {rs : List SpreadsheetRow} {a : Abstract}
    (ha : a ∈ rs.filterMap (fun r =>
      match normalizeAbstractId r.abstractId with
      | some n => if M n then none else some (rowEntry r n)
      | none => none)) :
    ∃ r n, r ∈ rs ∧ normalizeAbstractId r.abstractId = some n ∧ M n = false ∧
      a = rowEntry r n ∧ n ∈ rowNormIds rs := by
  rcases List.mem_filterMap.mp ha with ⟨r, hr, hfn⟩
  cases hn : normalizeAbstractId r.abstractId with
  | none => simp only [hn] at hfn; simp at hfn
  | some n =>
    simp only [hn] at hfn
    by_cases hM : M n = true
    · rw [if_pos hM] at hfn; simp at hfn
    · rw [if_neg hM] at hfn
      exact ⟨r, n, hr, hn, Bool.eq_false_iff.mpr hM, (Option.some.inj hfn).symm,
        List.mem_filterMap.mpr ⟨r, hr, hn⟩⟩

theorem rowFilterMap_pairwise {M : String → Bool} :
    ∀ {rs : List SpreadsheetRow}, (rowNormIds rs).Nodup →
      (rs.filterMap (fun r =>
        match normalizeAbstractId r.abstractId with
        | some n => if M n then none else some (rowEntry r n)
        | none => none)).Pairwise
        (fun a b => ¬(a.abstractId.isSome = true ∧ a.abstractId = b.abstractId)) := by
  intro rs
  induction rs with
  | nil => intro _; simp
  | cons r rs ih =>
    intro hnd
    simp only [List.filterMap_cons]
    cases hn : normalizeAbstractId r.abstractId with
    | none =>
      simp only [hn]
      apply ih
      simpa [rowNormIds, List.filterMap_cons, hn] using hnd
    | some n =>
      have hnd2 : n ∉ rowNormIds rs ∧ (rowNormIds rs).Nodup := by
        have h2 := hnd
        simp only [rowNormIds, List.filterMap_cons, hn] at h2
        exact ⟨(List.nodup_cons.mp h2).1, (List.nodup_cons.mp h2).2⟩
      simp only [hn]
      by_cases hM : M n = true
      · simp only [if_pos hM]
        exact ih hnd2.2
      · simp only [if_neg hM]
        refine List.pairwise_cons.mpr ⟨?_, ih hnd2.2⟩
        intro b hb
        rcases rowFilterMap_mem hb with ⟨r', n', _, _, _, rfl, hmem⟩
        rintro ⟨_, heq⟩
        have : n = n' := Option.some.inj heq
        exact hnd2.1 (this ▸ hmem)

theorem cross_file_row {files : List ScannedFile} {pl : List ParsedFilename}
    {rows : Option (List SpreadsheetRow)} (hwf : ∀ p ∈ pl, wfParsed p = true) :
    ∀ a ∈ fileEntriesGo rows 0 files pl, ∀ b ∈ rowEntries files pl rows,
      ¬(a.abstractId.isSome = true ∧ a.abstractId = b.abstractId) := by
  intro a ha b hb
  cases rows with
  | none => simp [rowEntries] at hb
  | some rs =>
    simp only [rowEntries] at hb
    rcases rowFilterMap_mem hb with ⟨r, n', hr, hn', hM, rfl, _⟩
    rintro ⟨hsome, heq⟩
    rcases fileEntriesGo_mem_absId (some rs) files pl 0 a hwf ha with
      hnone | ⟨m, ham, hmem, _⟩
    · rw [hnone] at hsome; simp at hsome
    · rw [ham] at heq
      have hmn : m = n' := Option.some.inj heq
      have hms : (mapFind (some rs) n').isSome = true := mapFind_isSome_of_mem hr hn'
      have hdec : decide (n' ∈ fileNorms files pl) = false := by
        rw [isMatched, hms] at hM
        simpa using hM
      exact (of_decide_eq_false hdec) (hmn ▸ hmem)

theorem mem_combined_key {files : List ScannedFile} {pl : List ParsedFilename}
    {rows : Option (List SpreadsheetRow)} (hwf : ∀ p ∈ pl, wfParsed p = true) :
    ∀ b ∈ combinedEntries files rows pl, b.abstractId.isSome = true →
      (sortKey b).isSome = true := by
  intro b hb hsome
  rcases List.mem_append.mp hb with hb | hb
  · rcases fileEntriesGo_mem_absId rows files pl 0 b hwf hb with hnone | ⟨n, hbn, _, v, hv⟩
    · rw [hnone] at hsome; simp at hsome
    · rw [sortKey, hbn, hv]; rfl
  · cases rows with
    | none => simp [rowEntries] at hb
    | some rs =>
      simp only [rowEntries] at hb
      rcases rowFilterMap_mem hb with ⟨r, n, _, hn, _, rfl, _⟩
      rcases extractNumericId_normalized hn with ⟨v, hv⟩
      rw [sortKey]
      simp only [rowEntry]
      rw [hv]
      rfl

/-- C7 counterexample: two scanned files whose names carry the same
abstract id produce two entries with the identical normalized
`abstractId`, so the merged list is not unique by normalized id. -/
theorem canonical_list_uniqueness_cex :
    ¬ (generateAbstractList cexFilesDup none []).Pairwise
        (fun a b => ¬(a.abstractId.isSome = true ∧ a.abstractId = b.abstractId)) := by
  decide

/-- C7 (amended).  When the scanned files' normalized ids are pairwise
distinct, the spreadsheet rows' normalizable ids are pairwise distinct,
and the parsed-filename records are well formed (as `parseFilename`
guarantees), the merged list is unique by normalized `abstractId` when
that field is present; every entry without a parseable abstract id uses
the synthetic id `file-{index}`; and such entries always sort last. -/
theorem canonical_list_uniqueness_amended :
    ∀ (files : List ScannedFile) (rows : Option (List SpreadsheetRow))
      (pl : List ParsedFilename),
      (∀ p ∈ pl, wfParsed p = true) →
      (fileNorms files pl).Nodup →
      (rowNormIdsOpt rows).Nodup →
      (generateAbstractList files rows pl).Pairwise
        (fun a b => ¬(a.abstractId.isSome = true ∧ a.abstractId = b.abstractId)) ∧
      (∀ a ∈ generateAbstractList files rows pl, a.abstractId = none →
        ∃ i, i < files.length ∧ a.id = "file-" ++ natToStr i) ∧
      (generateAbstractList files rows pl).Pairwise
        (fun a b => a.abstractId = none → b.abstractId = none) := by
  intro files rows pl hwf hndf hndr
  have hperm : List.Perm (generateAbstractList files rows pl)
      (combinedEntries files rows pl) := sortAbstracts_perm _
  refine ⟨?_, ?_, ?_⟩
  · refine List.Pairwise.perm ?_ hperm.symm ?_
    swap
    · intro a b hab hcon
      exact hab ⟨hcon.2.symm ▸ hcon.1, hcon.2.symm⟩
    refine List.pairwise_append.mpr ⟨?_, ?_, ?_⟩
    · exact fileEntriesGo_pairwise rows files pl 0 hwf hndf
    · cases rows with
      | none => simp [rowEntries]
      | some rs =>
        simp only [rowEntries]
        exact rowFilterMap_pairwise hndr
    · exact cross_file_row hwf
  · intro a ha hnone
    have ha' : a ∈ combinedEntries files rows pl := hperm.mem_iff.mp ha
    rcases List.mem_append.mp ha' with ha' | ha'
    · rcases fileEntriesGo_none_id rows files pl 0 a ha' hnone with ⟨j, hj, hid⟩
      exact ⟨j, hj, by simpa using hid⟩
    · cases rows with
      | none => simp [rowEntries] at ha'
      | some rs =>
        simp only [rowEntries] at ha'
        rcases rowFilterMap_mem ha' with ⟨r, n, _, _, _, rfl, _⟩
        simp [rowEntry] at hnone
  · refine (sortAbstracts_sorted _).imp_of_mem ?_
    intro a b ha hb hR hanone
    have hka : sortKey a = none := by rw [sortKey, hanone]; rfl
    have hkb : sortKey b = none := by
      cases hkb : sortKey b with
      | none => rfl
      | some v => rw [hka, hkb] at hR; simp [keyLE] at hR
    by_cases hbs : b.abstractId.isSome = true
    · have := mem_combined_key hwf b (hperm.mem_iff.mp hb) hbs
      rw [hkb] at this
      simp at this
    · simpa [Option.not_isSome_iff_eq_none] using hbs

/-- Witness for the amended C7 on a mixed file list plus one
spreadsheet-only row. -/
theorem canonical_list_uniqueness_amended_witness :
    ((∀ p ∈ ([] : List ParsedFilename), wfParsed p = true) ∧
      (fileNorms wFilesMix []).Nodup ∧ (rowNormIdsOpt (some [wRow10])).Nodup) ∧
    (generateAbstractList wFilesMix (some [wRow10]) []).Pairwise
      (fun a b => ¬(a.abstractId.isSome = true ∧ a.abstractId = b.abstractId)) ∧
    (∀ a ∈ generateAbstractList wFilesMix (some [wRow10]) [], a.abstractId = none →
      ∃ i, i < wFilesMix.length ∧ a.id = "file-" ++ natToStr i) ∧
    (generateAbstractList wFilesMix (some [wRow10]) []).Pairwise
      (fun a b => a.abstractId = none → b.abstractId = none) :=
  ⟨⟨by decide, by decide, by decide⟩,
    canonical_list_uniqueness_amended wFilesMix (some [wRow10]) []
      (by decide) (by decide) (by decide)⟩

/-! ### Counting lemmas for merge completeness -/

theorem fileEntriesGo_length (rows : Option (List SpreadsheetRow)) :
    ∀ (files : List ScannedFile) (pl : List ParsedFilename) (i : Nat),
      (fileEntriesGo rows i files pl).length = files.length := by
  intro files
  induction files with
  | nil => intro pl i; rfl
  | cons f fs ih =>
    intro pl i
    simp only [fileEntriesGo, List.length_cons, ih]

theorem fileEntry_hasFile (rows : Option (List SpreadsheetRow)) (p : ParsedFilename)
    (i : Nat) (f : ScannedFile) : (fileEntry rows p i f).hasFile = true := by
  simp [fileEntry]

theorem fileEntriesGo_hasFile (rows : Option (List SpreadsheetRow)) :
    ∀ (files : List ScannedFile) (pl : List ParsedFilename) (i : Nat),
      ∀ a ∈ fileEntriesGo rows i files pl, a.hasFile = true := by
  intro files
  induction files with
  | nil => intro pl i a ha; simp [fileEntriesGo] at ha
  | cons f fs ih =>
    intro pl i a ha
    rw [fileEntriesGo] at ha
    rcases List.mem_cons.mp ha with rfl | ha
    · exact fileEntry_hasFile rows _ i f
    · exact ih pl.tail (i + 1) a ha

theorem rowEntries_hasFile {files : List ScannedFile} {pl : List ParsedFilename}
    {rows : Option (List SpreadsheetRow)} :
    ∀ a ∈ rowEntries files pl rows, a.hasFile = false := by
  intro a ha
  cases rows with
  | none => simp [rowEntries] at ha
  | some rs =>
    simp only [rowEntries] at ha
    rcases rowFilterMap_mem ha with ⟨r, n, _, _, _, rfl, _⟩
    simp [rowEntry]

theorem filterMap_row_length {M : String → Bool} :
    ∀ (rs : List SpreadsheetRow),
      (∀ r ∈ rs, (normalizeAbstractId r.abstractId).isSome = true) →
      (rs.filterMap (fun r =>
        match normalizeAbstractId r.abstractId with
        | some n => if M n then none else some (rowEntry r n)
        | none => none)).length =
      rs.length - rs.countP (fun r =>
        match normalizeAbstractId r.abstractId with
        | some n => M n
        | none => false) := by
  intro rs
  induction rs with
  | nil => intro _; rfl
  | cons r rs ih =>
    intro h1
    have hr := h1 r (List.mem_cons_self r rs)
    have ht : ∀ x ∈ rs, (normalizeAbstractId x.abstractId).isSome = true :=
      fun x hx => h1 x (List.mem_cons_of_mem r hx)
    have hcount : rs.countP (fun r =>
        match normalizeAbstractId r.abstractId with
        | some n => M n
        | none => false) ≤ rs.length := List.countP_le_length _
    cases hn : normalizeAbstractId r.abstractId with
    | none => rw [hn] at hr; simp at hr
    | some n =>
      simp only [List.filterMap_cons, List.countP_cons, List.length_cons, hn]
      by_cases hM : M n = true
      · simp only [hM, if_true]
        rw [ih ht]
        omega
      · rw [if_neg hM, if_neg hM]
        simp only [List.length_cons]
        rw [ih ht]
        omega

theorem rowEntries_length {files : List ScannedFile} {pl : List ParsedFilename}
    {rs : List SpreadsheetRow}
    (h1 : ∀ r ∈ rs, (normalizeAbstractId r.abstractId).isSome = true) :
    (rowEntries files pl (some rs)).length = rs.length - matchedRowCount files pl rs := by
  simp only [rowEntries]
  rw [filterMap_row_length rs h1]
  have hc : rs.countP (fun r =>
      match normalizeAbstractId r.abstractId with
      | some n => isMatched files pl (some rs) n
      | none => false) = matchedRowCount files pl rs := by
    rw [matchedRowCount]
    apply List.countP_congr
    intro r hr
    cases hn : normalizeAbstractId r.abstractId with
    | none => simp
    | some n => simp [isMatched, mapFind_isSome_of_mem hr hn]
  rw [hc]

theorem countP_rowNormIds (rs : List SpreadsheetRow) (q : String → Bool) :
    (rowNormIds rs).countP q =
      rs.countP (fun r =>
        match normalizeAbstractId r.abstractId with
        | some n => q n
        | none => false) := by
  induction rs with
  | nil => rfl
  | cons r rs ih =>
    simp only [rowNormIds] at ih ⊢
    simp only [List.filterMap_cons]
    cases hn : normalizeAbstractId r.abstractId with
    | none =>
      simp only [hn, List.countP_cons, ih]
      simp
    | some n =>
      simp only [hn, List.countP_cons, ih]

theorem count_mem_comm {A B : List String} (hA : A.Nodup) (hB : B.Nodup) :
    A.countP (fun n => decide (n ∈ B)) = B.countP (fun n => decide (n ∈ A)) := by
  rw [List.countP_eq_length_filter, List.countP_eq_length_filter]
  rw [← List.toFinset_card_of_nodup (hA.filter _),
    ← List.toFinset_card_of_nodup (hB.filter _)]
  rw [List.toFinset_filter, List.toFinset_filter]
  have hc1 : Finset.filter (fun x => decide (x ∈ B) = true) A.toFinset =
      Finset.filter (fun i => i ∈ B.toFinset) A.toFinset :=
    Finset.filter_congr (fun x _ => by simp [List.mem_toFinset])
  have hc2 : Finset.filter (fun x => decide (x ∈ A) = true) B.toFinset =
      Finset.filter (fun i => i ∈ A.toFinset) B.toFinset :=
    Finset.filter_congr (fun x _ => by simp [List.mem_toFinset])
  rw [hc1, hc2, Finset.filter_mem_eq_inter, Finset.filter_mem_eq_inter, Finset.inter_comm]

/-- C1 counterexample: a spreadsheet row whose identifier fails ABS
normalization is dropped entirely instead of being emitted, so with one
parseable file and one unmatched row the merged list has 1 entry, not
`F + (S - m) = 2`. -/
theorem merge_completeness_cex :
    ¬ ((generateAbstractList [cexFileAbs1] (some [cexRowXYZ]) []).length =
      ([cexFileAbs1] : List ScannedFile).length +
        (([cexRowXYZ] : List SpreadsheetRow).length -
          matchedRowCount [cexFileAbs1] [] [cexRowXYZ])) := by
  decide

/-- C1 (amended).  Merge completeness for rows that all normalize, with
pairwise-distinct normalized row ids and pairwise-distinct normalized
file ids: the merged list has exactly `F + (S - m)` entries, exactly
`S - m` of them have `hasFile = false`, exactly `F` have
`hasFile = true`, and exactly `m` scanned files receive
spreadsheet-sourced metadata (so `F - m` — not `F - k` — file-backed
entries retain filename-derived metadata). -/
theorem merge_completeness_amended :
    ∀ (files : List ScannedFile) (rs : List SpreadsheetRow) (pl : List ParsedFilename),
      (∀ r ∈ rs, (normalizeAbstractId r.abstractId).isSome = true) →
      (fileNorms files pl).Nodup →
      (rowNormIds rs).Nodup →
      (generateAbstractList files (some rs) pl).length =
        files.length + (rs.length - matchedRowCount files pl rs) ∧
      (generateAbstractList files (some rs) pl).countP (fun a => !a.hasFile) =
        rs.length - matchedRowCount files pl rs ∧
      (generateAbstractList files (some rs) pl).countP (fun a => a.hasFile) =
        files.length ∧
      matchedFileCount files pl rs = matchedRowCount files pl rs := by
  intro files rs pl h1 hndf hndr
  have hperm := sortAbstracts_perm (combinedEntries files (some rs) pl)
  have hf0 : (fileEntriesGo (some rs) 0 files pl).countP (fun a => !a.hasFile) = 0 :=
    List.countP_eq_zero.mpr (fun a ha => by
      simp [fileEntriesGo_hasFile (some rs) files pl 0 a ha])
  have hfl : (fileEntriesGo (some rs) 0 files pl).countP (fun a => a.hasFile) =
      (fileEntriesGo (some rs) 0 files pl).length :=
    List.countP_eq_length.mpr (fun a ha => fileEntriesGo_hasFile (some rs) files pl 0 a ha)
  have hr0 : (rowEntries files pl (some rs)).countP (fun a => a.hasFile) = 0 :=
    List.countP_eq_zero.mpr (fun a ha => by simp [rowEntries_hasFile a ha])
  have hrl : (rowEntries files pl (some rs)).countP (fun a => !a.hasFile) =
      (rowEntries files pl (some rs)).length :=
    List.countP_eq_length.mpr (fun a ha => by simp [rowEntries_hasFile a ha])
  refine ⟨?_, ?_, ?_, ?_⟩
  · rw [generateAbstractList, hperm.length_eq, combinedEntries, List.length_append,
      fileEntriesGo_length, rowEntries_length h1]
  · rw [generateAbstractList, List.Perm.countP_eq _ hperm, combinedEntries,
      List.countP_append, hf0, hrl, rowEntries_length h1, Nat.zero_add]
  · rw [generateAbstractList, List.Perm.countP_eq _ hperm, combinedEntries,
      List.countP_append, hfl, hr0, fileEntriesGo_length, Nat.add_zero]
  · calc matchedFileCount files pl rs
        = (rowNormIds rs).countP (fun n => decide (n ∈ fileNorms files pl)) :=
          count_mem_comm hndf hndr
      _ = matchedRowCount files pl rs := countP_rowNormIds rs _

/-- Witness for the amended C1: one file (ABS-1) and two rows (ABS-0001
matching through normalization, ABS-10 unmatched). -/
theorem merge_completeness_amended_witness :
    ((∀ r ∈ [wRow1, wRow10], (normalizeAbstractId r.abstractId).isSome = true) ∧
      (fileNorms [cexFileAbs1] []).Nodup ∧ (rowNormIds [wRow1, wRow10]).Nodup) ∧
    (generateAbstractList [cexFileAbs1] (some [wRow1, wRow10]) []).length =
      ([cexFileAbs1] : List ScannedFile).length +
        (([wRow1, wRow10] : List SpreadsheetRow).length -
          matchedRowCount [cexFileAbs1] [] [wRow1, wRow10]) ∧
    (generateAbstractList [cexFileAbs1] (some [wRow1, wRow10]) []).countP
        (fun a => !a.hasFile) =
      ([wRow1, wRow10] : List SpreadsheetRow).length -
        matchedRowCount [cexFileAbs1] [] [wRow1, wRow10] ∧
    (generateAbstractList [cexFileAbs1] (some [wRow1, wRow10]) []).countP
        (fun a => a.hasFile) = ([cexFileAbs1] : List ScannedFile).length ∧
    matchedFileCount [cexFileAbs1] [] [wRow1, wRow10] =
      matchedRowCount [cexFileAbs1] [] [wRow1, wRow10] :=
  ⟨⟨by decide, by decide, by decide⟩,
    merge_completeness_amended [cexFileAbs1] [wRow1, wRow10] []
      (by decide) (by decide) (by decide)⟩

/-- C6 counterexample: a spreadsheet row whose identifier does not match
the ABS pattern is never emitted — the merged list is empty, with no
`hasFile = false` entry for the row. -/
theorem spreadsheet_only_emission_cex :
    ¬ ∃ a ∈ generateAbstractList [] (some [cexRowNonAbs]) [], a.hasFile = false := by
  decide

/-- C6 (amended).  Spreadsheet-only emission for rows with a
normalizable id: every row whose normalized id is claimed by no scanned
file yields an entry with `hasFile = false`, fileType `document`, title
defaulting to the row's own id when its title is empty, author
defaulting to `Unknown`, and empty-string description default.  (Rows
whose identifier does not match the ABS pattern are dropped, contrary to
the original claim.) -/
theorem spreadsheet_only_emission_amended :
    ∀ (files : List ScannedFile) (rs : List SpreadsheetRow) (pl : List ParsedFilename)
      (r : SpreadsheetRow) (n : String),
      r ∈ rs → normalizeAbstractId r.abstractId = some n →
      n ∉ fileNorms files pl →
      rowEntry r n ∈ generateAbstractList files (some rs) pl ∧
      (rowEntry r n).hasFile = false ∧
      (rowEntry r n).fileType = "document" ∧
      (rowEntry r n).abstractId = some n ∧
      (rowEntry r n).title = jsOrS r.title r.abstractId ∧
      (rowEntry r n).author = jsOrS r.author "Unknown" ∧
      (rowEntry r n).description = jsOrS r.description "" := by
  intro files rs pl r n hr hn hmem
  refine ⟨?_, rfl, rfl, rfl, rfl, rfl, rfl⟩
  have hM : isMatched files pl (some rs) n = false := by
    rw [isMatched]
    simp [hmem]
  have hm : rowEntry r n ∈ rowEntries files pl (some rs) := by
    simp only [rowEntries]
    refine List.mem_filterMap.mpr ⟨r, hr, ?_⟩
    simp [hn, hM]
  exact (sortAbstracts_perm _).mem_iff.mpr
    (List.mem_append.mpr (Or.inr hm))

/-- Witness for the amended C6: the spreadsheet-only scenario row ABS-10
with no scanned files. -/
theorem spreadsheet_only_emission_amended_witness :
    (wRow10 ∈ [wRow10] ∧ normalizeAbstractId wRow10.abstractId = some "ABS-10" ∧
      "ABS-10" ∉ fileNorms [] []) ∧
    rowEntry wRow10 "ABS-10" ∈ generateAbstractList [] (some [wRow10]) [] ∧
    (rowEntry wRow10 "ABS-10").hasFile = false ∧
    (rowEntry wRow10 "ABS-10").fileType = "document" ∧
    (rowEntry wRow10 "ABS-10").abstractId = some "ABS-10" ∧
    (rowEntry wRow10 "ABS-10").title = jsOrS wRow10.title wRow10.abstractId ∧
    (rowEntry wRow10 "ABS-10").author = jsOrS wRow10.author "Unknown" ∧
    (rowEntry wRow10 "ABS-10").description = jsOrS wRow10.description "" :=
  ⟨⟨by decide, by decide, by decide⟩,
    spreadsheet_only_emission_amended [] [wRow10] [] wRow10 "ABS-10"
      (by decide) (by decide) (by decide)⟩

end EPoster
